import Mathlib

/-!
# Verification of the stardog-wasm guest modules

Shallow embedding of the repository's Rust guest modules (the constant
modules `pi`, `e`, `frac_pi_3`, the `to_upper` module, and the
`toupper_ptr_len` allocator pair `malloc`/`free`), together with proofs of
the specified properties: the null-terminated UTF-8 buffer codec, the
arena allocator contract, the JSON result-envelope construction, the
error-fatality of the input-reading pipeline, and the constant modules'
output values.

Bytes are modelled as `Nat` (values < 256 where produced), unicode scalar
values as Lean `Char` (which, like Rust `char`, carries exactly the
unicode-scalar-value invariant), and guest memory as lists of bytes plus
an explicit allocator state.
-/

set_option maxRecDepth 10000

namespace StardogWasm

/-! ## Buffer codec: UTF-8 with null-terminator convention

`CString::from_vec_unchecked(bytes).into_raw()` hands the host a buffer
holding `bytes` followed by one terminator byte `0`.
`CStr::from_ptr(p).to_str()` reads bytes up to the first `0` and validates
them as UTF-8. -/

/-- UTF-8 encoding of one unicode scalar value (Rust `char`), as bytes. -/
def utf8EncodeCP (n : Nat) : List Nat :=
  if n < 0x80 then [n]
  else if n < 0x800 then [0xC0 + n / 64, 0x80 + n % 64]
  else if n < 0x10000 then
    [0xE0 + n / 4096, 0x80 + n / 64 % 64, 0x80 + n % 64]
  else
    [0xF0 + n / 262144, 0x80 + n / 4096 % 64, 0x80 + n / 64 % 64, 0x80 + n % 64]

/-- UTF-8 encoding of a string (Rust `str::as_bytes`). -/
def utf8Encode : List Char → List Nat
  | [] => []
  | c :: cs => utf8EncodeCP c.toNat ++ utf8Encode cs

/-- Decode one UTF-8 sequence from the front of a byte list, validating
exactly what Rust's UTF-8 validation validates: continuation-byte shape,
no overlong forms, no surrogates, and codepoints below `0x110000`.
Returns the scalar value and the remaining bytes. -/
def utf8DecodeCP : List Nat → Option (Nat × List Nat)
  | [] => none
  | b0 :: r =>
    if b0 < 0x80 then some (b0, r)
    else if b0 < 0xC2 then none
    else if b0 < 0xE0 then
      match r with
      | b1 :: r1 =>
        if 0x80 ≤ b1 ∧ b1 < 0xC0 then
          some ((b0 - 0xC0) * 64 + (b1 - 0x80), r1)
        else none
      | [] => none
    else if b0 < 0xF0 then
      match r with
      | b1 :: b2 :: r2 =>
        if (0x80 ≤ b1 ∧ b1 < 0xC0) ∧ (0x80 ≤ b2 ∧ b2 < 0xC0) then
          let n := (b0 - 0xE0) * 4096 + (b1 - 0x80) * 64 + (b2 - 0x80)
          if 0x800 ≤ n ∧ ¬(0xD800 ≤ n ∧ n < 0xE000) then some (n, r2) else none
        else none
      | _ => none
    else if b0 < 0xF5 then
      match r with
      | b1 :: b2 :: b3 :: r3 =>
        if (0x80 ≤ b1 ∧ b1 < 0xC0) ∧ (0x80 ≤ b2 ∧ b2 < 0xC0) ∧
            (0x80 ≤ b3 ∧ b3 < 0xC0) then
          let n := (b0 - 0xF0) * 262144 + (b1 - 0x80) * 4096 +
            (b2 - 0x80) * 64 + (b3 - 0x80)
          if 0x10000 ≤ n ∧ n < 0x110000 then some (n, r3) else none
        else none
      | _ => none
    else none

/-- Decode a whole byte list as UTF-8 (`str::from_utf8` / `to_str`),
with explicit fuel for termination; the fuel bounds the number of
characters, so any fuel at least the byte count suffices. -/
def utf8DecodeLoop : Nat → List Nat → Option (List Char)
  | _, [] => some []
  | 0, _ :: _ => none
  | fuel + 1, bs =>
    (utf8DecodeCP bs).bind fun p =>
      (utf8DecodeLoop fuel p.2).map fun cs => Char.ofNat p.1 :: cs

/-- Bytes of a buffer up to (excluding) the first terminator byte:
the span `CStr::from_ptr` reads. -/
def takeUntilNul : List Nat → List Nat
  | [] => []
  | b :: r => if b = 0 then [] else b :: takeUntilNul r

/-- `decode`: read from the buffer up to the first terminator byte and
reinterpret those bytes as UTF-8 (`CStr::from_ptr(p).to_str()`).
Fails (`unwrap` aborts) on invalid UTF-8. -/
def cstrDecode (mem : List Nat) : Option (List Char) :=
  utf8DecodeLoop (takeUntilNul mem).length (takeUntilNul mem)

/-- `encode`: the byte contents of the buffer produced by
`CString::from_vec_unchecked(s.into_bytes()).into_raw()`: the string's
UTF-8 bytes followed by one appended terminator byte. -/
def cstringEncode (s : List Char) : List Nat :=
  utf8Encode s ++ [0]
/-! ## Arena allocator (`malloc` / `free` in `toupper_ptr_len`)

`malloc(size)` is `Vec::with_capacity(size)` + `mem::forget`: it reserves a
fresh region of capacity `size` and leaks it to the caller without writing
a single byte.  `free(pointer, capacity)` is
`Vec::from_raw_parts(pointer, 0, capacity)` immediately dropped: defined
(per the Rust global-allocator contract) exactly when a live region with
this address and capacity exists; any other call is undefined behavior,
modelled as `none`.

The allocator state is the list of live (leaked) regions as
`(address, capacity)` pairs — its complement is the free pool — together
with the byte contents of guest memory. -/

structure AllocState where
  regions : List (Nat × Nat)
  mem : Nat → Nat

/-- Address chosen for a fresh region: past the end of every live region. -/
def freshAddr (rs : List (Nat × Nat)) : Nat :=
  rs.foldr (fun p a => max a (p.1 + p.2)) 1

/-- `malloc` from `toupper_ptr_len/src/lib.rs`. -/
def malloc (σ : AllocState) (size : Nat) : Nat × AllocState :=
  (freshAddr σ.regions, ⟨(freshAddr σ.regions, size) :: σ.regions, σ.mem⟩)

/-- `free` from `toupper_ptr_len/src/lib.rs`. -/
def free (σ : AllocState) (addr cap : Nat) : Option AllocState :=
  if (addr, cap) ∈ σ.regions then
    some ⟨σ.regions.erase (addr, cap), σ.mem⟩
  else none

/-! ## JSON documents

The structured-document library (`serde_json`) is external to the
repository; the spec treats it as a black box that parses UTF-8 text into
a tree of values, is queried by path, and serializes back.  `Json` is
that tree.  Numbers are carried as their serialized decimal token — the
only numbers the modules ever produce are three fixed `f64` constants,
whose tokens are pinned below and proved to parse back to the exact
doubles. -/

inductive Json where
  | null
  | bool (b : Bool)
  | num (tok : List Char)
  | str (s : List Char)
  | arr (elems : List Json)
  | obj (members : List (List Char × Json))

/-- Lower-case hex digit, as in serde_json's escape table. -/
def hexDigit (n : Nat) : Char :=
  if n < 10 then Char.ofNat (48 + n) else Char.ofNat (87 + n)

/-- serde_json's string escaping: `"` and `\` get a backslash, the five
short control escapes are used where they exist, all other control
characters become `\u00XX`, and everything else (including non-ASCII) is
passed through unescaped. -/
def escChar (c : Char) : List Char :=
  if c = '"' then ['\\', '"']
  else if c = '\\' then ['\\', '\\']
  else if c.toNat = 8 then ['\\', 'b']
  else if c.toNat = 9 then ['\\', 't']
  else if c.toNat = 10 then ['\\', 'n']
  else if c.toNat = 12 then ['\\', 'f']
  else if c.toNat = 13 then ['\\', 'r']
  else if c.toNat < 32 then
    ['\\', 'u', '0', '0', hexDigit (c.toNat / 16), hexDigit (c.toNat % 16)]
  else [c]

def escString : List Char → List Char
  | [] => []
  | c :: cs => escChar c ++ escString cs

def serStr (s : List Char) : List Char := '"' :: escString s ++ ['"']

mutual

/-- Compact serialization (`Value::to_string`): `null`/`true`/`false`
keywords, number tokens verbatim, escaped quoted strings, and
comma-separated brackets and braces with `"key":value` members. -/
def ser : Json → List Char
  | .null => "null".data
  | .bool true => "true".data
  | .bool false => "false".data
  | .num tok => tok
  | .str s => serStr s
  | .arr [] => "[]".data
  | .arr (x :: xs) => '[' :: (ser x ++ serElems xs ++ [']'])
  | .obj [] => "\x7b\x7d".data
  | .obj ((k, v) :: ms) =>
    '\x7b' :: (serStr k ++ ':' :: ser v ++ serMembers ms ++ ['\x7d'])

/-- Remaining array elements, each preceded by a comma. -/
def serElems : List Json → List Char
  | [] => []
  | x :: xs => ',' :: (ser x ++ serElems xs)

/-- Remaining object members, each preceded by a comma. -/
def serMembers : List (List Char × Json) → List Char
  | [] => []
  | (k, v) :: ms => ',' :: (serStr k ++ ':' :: ser v ++ serMembers ms)

end

/-- `value[key]` on a serde `Value`: the member's value if the value is an
object containing the key, `Null` otherwise. -/
def Json.key (j : Json) (k : List Char) : Json :=
  match j with
  | .obj ms =>
    match ms.find? (fun m => m.1 == k) with
    | some m => m.2
    | none => .null
  | _ => .null

/-- `value[index]`: the element if the value is an array with the index in
bounds, `Null` otherwise. -/
def Json.idx (j : Json) (i : Nat) : Json :=
  match j with
  | .arr xs => xs.getD i .null
  | _ => .null

/-- `Value::as_str`: `Some` exactly on strings. -/
def Json.asStr : Json → Option (List Char)
  | .str s => some s
  | _ => none

/-! ## JSON parsing (`serde_json::from_str`)

A parser for the JSON grammar serde_json accepts: the four whitespace
characters, `null`/`true`/`false`, quoted strings with the standard
escapes and `\uXXXX` (combining surrogate pairs, rejecting lone
surrogates and unescaped control characters), numbers
`-? int frac? exp?`, and comma-separated arrays and objects, with the
full input consumed and later duplicate object keys overwriting earlier
ones.  The value parser carries fuel for termination through nesting;
each nesting level consumes at least one input character, so fuel
exceeding the input length suffices. -/

def isWs (c : Char) : Bool :=
  c = ' ' || c = '\t' || c = '\n' || c = '\r'

def skipWs : List Char → List Char
  | [] => []
  | c :: cs => if isWs c then skipWs cs else c :: cs

def hexVal (c : Char) : Option Nat :=
  if '0' ≤ c ∧ c ≤ '9' then some (c.toNat - 48)
  else if 'a' ≤ c ∧ c ≤ 'f' then some (c.toNat - 87)
  else if 'A' ≤ c ∧ c ≤ 'F' then some (c.toNat - 55)
  else none

def hex4 (a b c d : Char) : Option Nat := do
  let x1 ← hexVal a
  let x2 ← hexVal b
  let x3 ← hexVal c
  let x4 ← hexVal d
  some (x1 * 4096 + x2 * 256 + x3 * 16 + x4)

/-- Body of a quoted string, after the opening quote: returns the decoded
characters and the input after the closing quote. -/
def parseStringBody : List Char → Option (List Char × List Char)
  | [] => none
  | c :: cs =>
    if c = '"' then some ([], cs)
    else if c = '\\' then
      match cs with
      | 'u' :: h1 :: h2 :: h3 :: h4 :: cs1 => do
        let u ← hex4 h1 h2 h3 h4
        if u < 0xD800 ∨ 0xE000 ≤ u then
          let p ← parseStringBody cs1
          some (Char.ofNat u :: p.1, p.2)
        else if u < 0xDC00 then
          match cs1 with
          | '\\' :: 'u' :: g1 :: g2 :: g3 :: g4 :: cs2 => do
            let u2 ← hex4 g1 g2 g3 g4
            if 0xDC00 ≤ u2 ∧ u2 < 0xE000 then
              let p ← parseStringBody cs2
              some (Char.ofNat (0x10000 + (u - 0xD800) * 1024 +
                (u2 - 0xDC00)) :: p.1, p.2)
            else none
          | _ => none
        else none
      | e :: cs1 => do
        let d ←
          if e = '"' then some '"'
          else if e = '\\' then some '\\'
          else if e = '/' then some '/'
          else if e = 'b' then some (Char.ofNat 8)
          else if e = 'f' then some (Char.ofNat 12)
          else if e = 'n' then some (Char.ofNat 10)
          else if e = 'r' then some (Char.ofNat 13)
          else if e = 't' then some (Char.ofNat 9)
          else none
        let p ← parseStringBody cs1
        some (d :: p.1, p.2)
      | [] => none
    else if c.toNat < 0x20 then none
    else
      (parseStringBody cs).map fun p => (c :: p.1, p.2)

/-- Longest digit prefix and the rest. -/
def takeDigits : List Char → List Char × List Char
  | [] => ([], [])
  | c :: cs =>
    if c.isDigit then
      let p := takeDigits cs
      (c :: p.1, p.2)
    else ([], c :: cs)

/-- Optional fraction part: `.` followed by one or more digits. -/
def parseFracPart : List Char → Option (List Char × List Char)
  | '.' :: t =>
    match takeDigits t with
    | ([], _) => none
    | (ds, t2) => some ('.' :: ds, t2)
  | l => some ([], l)

/-- Optional exponent part: `e`/`E`, optional sign, one or more digits. -/
def parseExpPart : List Char → Option (List Char × List Char)
  | e :: t =>
    if e = 'e' ∨ e = 'E' then
      let sp : List Char × List Char :=
        match t with
        | '+' :: r => (['+'], r)
        | '-' :: r => (['-'], r)
        | _ => ([], t)
      match takeDigits sp.2 with
      | ([], _) => none
      | (ds, t2) => some (e :: (sp.1 ++ ds), t2)
    else some ([], e :: t)
  | [] => some ([], [])

/-- A number token: optional minus, `0` or a nonzero-led digit run,
optional fraction, optional exponent.  Returns the lexeme and the rest. -/
def parseNumber (l : List Char) : Option (List Char × List Char) :=
  let sp : List Char × List Char :=
    match l with
    | '-' :: t => (['-'], t)
    | _ => ([], l)
  match sp.2 with
  | [] => none
  | c :: t =>
    if c = '0' then do
      let f ← parseFracPart t
      let e ← parseExpPart f.2
      some (sp.1 ++ '0' :: (f.1 ++ e.1), e.2)
    else if c.isDigit then do
      let ds := takeDigits t
      let f ← parseFracPart ds.2
      let e ← parseExpPart f.2
      some (sp.1 ++ c :: (ds.1 ++ (f.1 ++ e.1)), e.2)
    else none

/-- Insert one object member under serde's map semantics: a later
occurrence of the same key (already in `ms`, which holds the members
parsed after this one) wins. -/
def insertMember (k : List Char) (v : Json) :
    List (List Char × Json) → List (List Char × Json)
  | [] => [(k, v)]
  | (k1, v1) :: ms =>
    if k == k1 then (k1, v1) :: ms
    else (k1, v1) :: insertMember k v ms

mutual

def parseVal : Nat → List Char → Option (Json × List Char)
  | 0, _ => none
  | fuel + 1, l =>
    match skipWs l with
    | [] => none
    | c :: t =>
      if c = 'n' then
        match t with
        | 'u' :: 'l' :: 'l' :: r => some (.null, r)
        | _ => none
      else if c = 't' then
        match t with
        | 'r' :: 'u' :: 'e' :: r => some (.bool true, r)
        | _ => none
      else if c = 'f' then
        match t with
        | 'a' :: 'l' :: 's' :: 'e' :: r => some (.bool false, r)
        | _ => none
      else if c = '"' then
        (parseStringBody t).map fun p => (.str p.1, p.2)
      else if c = '[' then
        match skipWs t with
        | ']' :: r => some (.arr [], r)
        | t1 => (parseElems fuel t1).map fun p => (.arr p.1, p.2)
      else if c = '\x7b' then
        match skipWs t with
        | '\x7d' :: r => some (.obj [], r)
        | t1 => (parseObjMembers fuel t1).map fun p => (.obj p.1, p.2)
      else if c = '-' ∨ c.isDigit then
        (parseNumber (c :: t)).map fun p => (.num p.1, p.2)
      else none

def parseElems : Nat → List Char → Option (List Json × List Char)
  | 0, _ => none
  | fuel + 1, l => do
    let (v, r) ← parseVal fuel l
    match skipWs r with
    | ',' :: r1 => (parseElems fuel r1).map fun p => (v :: p.1, p.2)
    | ']' :: r1 => some ([v], r1)
    | _ => none

def parseObjMembers : Nat → List Char →
    Option (List (List Char × Json) × List Char)
  | 0, _ => none
  | fuel + 1, l =>
    match skipWs l with
    | '"' :: t => do
      let (k, r) ← parseStringBody t
      match skipWs r with
      | ':' :: r1 => do
        let (v, r2) ← parseVal fuel r1
        match skipWs r2 with
        | ',' :: r3 =>
          (parseObjMembers fuel r3).map fun p => (insertMember k v p.1, p.2)
        | '\x7d' :: r3 => some (insertMember k v [], r3)
        | _ => none
      | _ => none
    | _ => none

end

/-- `serde_json::from_str`: parse one value and require the rest of the
input to be whitespace. -/
def parseJson (s : List Char) : Option Json := do
  let (v, r) ← parseVal (s.length + 1) s
  match skipWs r with
  | [] => some v
  | _ => none

/-! ## The uppercase transform and the result envelope -/

/-- Modelled from the spec: the case transform is the Unicode-aware
uppercase of the external `str::to_uppercase` ("which must be
Unicode-aware, not byte-wise ASCII-only"), whose full case table lives
outside this repository.  This model is that mapping restricted to the
Basic Latin and Latin-1 Supplement blocks — including the one-to-many
special casing ß → SS and µ → Μ — and the identity beyond them. -/
def upperChar (c : Char) : List Char :=
  if 0x61 ≤ c.toNat ∧ c.toNat ≤ 0x7A then [Char.ofNat (c.toNat - 32)]
  else if c.toNat = 0xB5 then [Char.ofNat 0x39C]
  else if c.toNat = 0xDF then ['S', 'S']
  else if 0xE0 ≤ c.toNat ∧ c.toNat ≤ 0xFE ∧ c.toNat ≠ 0xF7 then
    [Char.ofNat (c.toNat - 32)]
  else if c.toNat = 0xFF then [Char.ofNat 0x178]
  else [c]

def toUppercase : List Char → List Char
  | [] => []
  | c :: cs => upperChar c ++ toUppercase cs

/-- The Result Envelope every module builds with the `json!` literal:
`head.vars = ["result"]` and one binding named `"result"` typed
`"literal"` holding the computed value.  (The member order written in the
source is already the sorted order serde_json's map stores.) -/
def envelope (v : Json) : Json :=
  .obj [("head".data, .obj [("vars".data, .arr [.str "result".data])]),
        ("results".data, .obj [("bindings".data, .arr [
          .obj [("result".data,
                 .obj [("type".data, .str "literal".data),
                       ("value".data, v)])]])])]

/-! ## The modules' `evaluate` entry points

Each `evaluate` receives the address of a null-terminated input buffer
(modelled as the byte list at that address) and returns a freshly
allocated null-terminated output buffer (modelled as its byte list).
`none` models the abort of a failed `unwrap`. -/

/-- The fixed input path of the `to_upper` module:
`v["results"]["bindings"][0]["value_1"]["value"]`. -/
def toUpperExtract (v : Json) : Json :=
  ((((v.key "results".data).key "bindings".data).idx 0).key
    "value_1".data).key "value".data

/-- `evaluate` of `function/string/to_upper`: decode the C string and
validate UTF-8, parse as JSON, extract the fixed path, require a string,
uppercase it, wrap it in the result envelope, serialize, and return the
newly allocated null-terminated buffer.  Each `unwrap` on a failure
aborts (`none`). -/
def toUpperEvaluate (input : List Nat) : Option (List Nat) := do
  let s ← cstrDecode input
  let v ← parseJson s
  let r ← (toUpperExtract v).asStr
  some (cstringEncode (ser (envelope (.str (toUppercase r)))))

/-- Modelled from the spec: serde_json prints the `f64` constant
`std::f64::consts::PI` — exactly 884279719003555 / 2^48 — through the
external ryu algorithm as the shortest decimal that parses back to the
same double; that fixed token is pinned here, and C6 below proves it
parses back to exactly this double. -/
def piToken : List Char := "3.141592653589793".data

/-- Modelled from the spec: shortest round-trip decimal for
`std::f64::consts::E`, exactly 6121026514868073 / 2^51 (see `piToken`). -/
def eToken : List Char := "2.718281828459045".data

/-- Modelled from the spec: shortest round-trip decimal for
`std::f64::consts::FRAC_PI_3`, exactly 2358079250676147 / 2^51
(see `piToken`). -/
def fracPi3Token : List Char := "1.0471975511965979".data

/-- `evaluate` of `function/math/constants/pi`: ignores its argument and
returns the serialized envelope holding `consts::PI`. -/
def piEvaluate (_input : List Nat) : List Nat :=
  cstringEncode (ser (envelope (.num piToken)))

/-- `evaluate` of `function_math_constants/e`. -/
def eEvaluate (_input : List Nat) : List Nat :=
  cstringEncode (ser (envelope (.num eToken)))

/-- `evaluate` of `function/math/constants/frac_pi_3`. -/
def fracPi3Evaluate (_input : List Nat) : List Nat :=
  cstringEncode (ser (envelope (.num fracPi3Token)))

/-! ## Boundary view: `evaluate` against the allocator state

On success an `evaluate` call hands its output bytes to one freshly
allocated region (`CString::into_raw` transfers ownership to the host)
and touches nothing else: no release of the input buffer, no write
outside the fresh region. -/

/-- Memory after writing `bs` at address `a`. -/
def writeBytes (m : Nat → Nat) (a : Nat) (bs : List Nat) : Nat → Nat :=
  fun x => if a ≤ x ∧ x < a + bs.length then bs.getD (x - a) 0 else m x

/-- Agreement of two memories outside `[a, a + len)`. -/
def MemUnchangedOutside (m m2 : Nat → Nat) (a len : Nat) : Prop :=
  ∀ x, x < a ∨ a + len ≤ x → m2 x = m x

/-- Run one module call against the allocator state: on success, exactly
one fresh region is reserved for the output bytes. -/
def runModule (f : List Nat → Option (List Nat)) (σ : AllocState)
    (input : List Nat) : Option (Nat × AllocState) :=
  (f input).map fun out =>
    (freshAddr σ.regions,
     ⟨(freshAddr σ.regions, out.length) :: σ.regions,
      writeBytes σ.mem (freshAddr σ.regions) out⟩)

def toUpperEvaluateSt (σ : AllocState) (input : List Nat) :
    Option (Nat × AllocState) :=
  runModule toUpperEvaluate σ input

def piEvaluateSt (σ : AllocState) (input : List Nat) :
    Option (Nat × AllocState) :=
  runModule (fun i => some (piEvaluate i)) σ input

/-! ## Decimal number tokens as exact rationals -/

def digitsToNat : List Char → Nat → Nat
  | [], acc => acc
  | c :: cs, acc => digitsToNat cs (acc * 10 + (c.toNat - 48))

/-- Exact rational value of a plain `digits.digits` decimal token (the
shape of the three constant tokens). -/
def decimalToRat (tok : List Char) : Option ℚ :=
  let ip := tok.takeWhile Char.isDigit
  match tok.dropWhile Char.isDigit with
  | [] => if ip.isEmpty then none else some (digitsToNat ip 0 : ℚ)
  | '.' :: fp =>
    if ip.isEmpty ∨ fp.isEmpty ∨ ¬fp.all Char.isDigit then none
    else some ((digitsToNat ip 0 : ℚ) +
      (digitsToNat fp 0 : ℚ) / (10 : ℚ) ^ fp.length)
  | _ => none

/-! ## Concrete demonstration input (end-to-end scenario 2) -/

def demoInputText : List Char :=
  "\x7b\"results\":\x7b\"bindings\":[\x7b\"value_1\":\x7b\"value\":\"hello\"\x7d\x7d]\x7d\x7d".data

def demoInput : List Nat := cstringEncode demoInputText

def demoValue : Json :=
  .obj [("results".data, .obj [("bindings".data, .arr [
    .obj [("value_1".data, .obj [("value".data, .str "hello".data)])]])])]

def demoOutput : List Nat :=
  cstringEncode (ser (envelope (.str (toUppercase "hello".data))))

mutual

/-- A value all of whose number tokens consist of printable characters
(trivially true for every value a module builds: the only tokens are the
three pinned constant tokens). -/
def serSafe : Json → Bool
  | .null => true
  | .bool _ => true
  | .num tok => tok.all fun c => decide (0x20 ≤ c.toNat)
  | .str _ => true
  | .arr xs => serSafeElems xs
  | .obj ms => serSafeMembers ms

def serSafeElems : List Json → Bool
  | [] => true
  | x :: xs => serSafe x && serSafeElems xs

def serSafeMembers : List (List Char × Json) → Bool
  | [] => true
  | (_, v) :: ms => serSafe v && serSafeMembers ms

end


/-- Allocator state for the C8 witness: one live (host-owned) region. -/
def demoState : AllocState := ⟨[(100, 5)], fun _ => 7⟩

/-- Allocator state after the pi module's call on `demoState`. -/
def demoStepped : AllocState :=
  ⟨(105, (piEvaluate []).length) :: demoState.regions,
   writeBytes demoState.mem 105 (piEvaluate [])⟩



/-! ### Codec lemmas -/

theorem utf8EncodeCP_ne_nil (n : Nat) : utf8EncodeCP n ≠ [] := by
  unfold utf8EncodeCP
  split_ifs <;> simp

theorem utf8DecodeCP_encodeCP (c : Char) (r : List Nat) :
    utf8DecodeCP (utf8EncodeCP c.toNat ++ r) = some (c.toNat, r) := by
  have hv : c.toNat < 0xD800 ∨ (0xDFFF < c.toNat ∧ c.toNat < 0x110000) := c.valid
  set n := c.toNat with hn
  by_cases h1 : n < 0x80
  · rw [utf8EncodeCP, if_pos h1]
    simp only [List.cons_append, List.nil_append, utf8DecodeCP]
    rw [if_pos h1]
  · by_cases h2 : n < 0x800
    · rw [utf8EncodeCP, if_neg h1, if_pos h2]
      simp only [List.cons_append, List.nil_append, utf8DecodeCP]
      rw [if_neg (by omega), if_neg (by omega), if_pos (by omega),
        if_pos (by omega)]
      congr 1
      congr 1
      omega
    · by_cases h3 : n < 0x10000
      · rw [utf8EncodeCP, if_neg h1, if_neg h2, if_pos h3]
        simp only [List.cons_append, List.nil_append, utf8DecodeCP]
        rw [if_neg (by omega), if_neg (by omega), if_neg (by omega),
          if_pos (by omega), if_pos (by omega), if_pos (by omega)]
        congr 1
        congr 1
        omega
      · have h4 : n < 0x110000 := by omega
        rw [utf8EncodeCP, if_neg h1, if_neg h2, if_neg h3]
        simp only [List.cons_append, List.nil_append, utf8DecodeCP]
        rw [if_neg (by omega), if_neg (by omega), if_neg (by omega),
          if_neg (by omega), if_pos (by omega), if_pos (by omega),
          if_pos (by omega)]
        congr 1
        congr 1
        omega

theorem utf8DecodeLoop_encode (s : List Char) (fuel : Nat)
    (hf : s.length ≤ fuel) :
    utf8DecodeLoop fuel (utf8Encode s) = some s := by
  induction s generalizing fuel with
  | nil => cases fuel <;> rfl
  | cons c cs ih =>
    cases fuel with
    | zero => simp at hf
    | succ f =>
      obtain ⟨b, t, he⟩ : ∃ b t, utf8Encode (c :: cs) = b :: t := by
        show ∃ b t, utf8EncodeCP c.toNat ++ utf8Encode cs = b :: t
        rcases h : utf8EncodeCP c.toNat with _ | ⟨b, t⟩
        · exact absurd h (utf8EncodeCP_ne_nil _)
        · exact ⟨b, t ++ utf8Encode cs, by simp⟩
      rw [he]
      show (utf8DecodeCP (b :: t)).bind (fun p =>
        (utf8DecodeLoop f p.2).map fun cs => Char.ofNat p.1 :: cs) =
          some (c :: cs)
      rw [← he]
      show (utf8DecodeCP (utf8EncodeCP c.toNat ++ utf8Encode cs)).bind
        (fun p => (utf8DecodeLoop f p.2).map fun cs => Char.ofNat p.1 :: cs) =
          some (c :: cs)
      rw [utf8DecodeCP_encodeCP c (utf8Encode cs)]
      have hf2 : cs.length ≤ f := by
        simp only [List.length_cons] at hf
        omega
      simp [ih f hf2, Char.ofNat_toNat]

theorem zero_not_mem_utf8EncodeCP (n : Nat) (hn : n ≠ 0) :
    ∀ b ∈ utf8EncodeCP n, b ≠ 0 := by
  intro b hb
  unfold utf8EncodeCP at hb
  split_ifs at hb <;> simp at hb <;> omega

theorem zero_not_mem_utf8Encode (s : List Char)
    (hnz : ∀ c ∈ s, c.toNat ≠ 0) : ∀ b ∈ utf8Encode s, b ≠ 0 := by
  induction s with
  | nil => intro b hb; simp [utf8Encode] at hb
  | cons c cs ih =>
    intro b hb
    simp only [utf8Encode, List.mem_append] at hb
    rcases hb with hb | hb
    · exact zero_not_mem_utf8EncodeCP c.toNat (hnz c (by simp)) b hb
    · exact ih (fun d hd => hnz d (by simp [hd])) b hb

theorem takeUntilNul_append_nul (l : List Nat) (hl : ∀ b ∈ l, b ≠ 0)
    (r : List Nat) : takeUntilNul (l ++ 0 :: r) = l := by
  induction l with
  | nil => rfl
  | cons b t ih =>
    show (if b = 0 then [] else b :: takeUntilNul (t ++ 0 :: r)) = b :: t
    rw [if_neg (hl b (by simp))]
    rw [ih (fun d hd => hl d (by simp [hd]))]

theorem length_le_utf8Encode_length (s : List Char) :
    s.length ≤ (utf8Encode s).length := by
  induction s with
  | nil => simp [utf8Encode]
  | cons c cs ih =>
    simp only [utf8Encode, List.length_cons, List.length_append]
    rcases h : utf8EncodeCP c.toNat with _ | ⟨b, t⟩
    · exact absurd h (utf8EncodeCP_ne_nil _)
    · simp only [List.length_cons]
      omega

theorem utf8DecodeLoop_fuel_mono (s : List Char) (bs : List Nat)
    (fuel fuel' : Nat) (hle : fuel ≤ fuel')
    (h : utf8DecodeLoop fuel bs = some s) :
    utf8DecodeLoop fuel' bs = some s := by
  induction fuel generalizing s bs fuel' with
  | zero =>
    cases bs with
    | nil => cases fuel' <;> simpa using h
    | cons b t => simp [utf8DecodeLoop] at h
  | succ f ih =>
    cases bs with
    | nil => cases fuel' <;> simpa using h
    | cons b t =>
      cases fuel' with
      | zero => omega
      | succ f' =>
        simp only [utf8DecodeLoop] at h ⊢
        rcases hd : utf8DecodeCP (b :: t) with _ | ⟨n, r⟩ <;> rw [hd] at h
        · simp at h
        · simp only [Option.some_bind] at h ⊢
          rcases hl : utf8DecodeLoop f r with _ | cs <;> rw [hl] at h
          · simp at h
          · rw [ih cs r f' (by omega) hl]
            exact h

/-- C1. For every valid UTF-8 string without an embedded terminator,
decoding the encoded buffer yields the string back:
`encode` lays out the string's bytes plus one terminator, and `decode`
reads up to the first terminator and reinterprets as UTF-8. -/
theorem C1_decode_encode_roundtrip (s : List Char)
    (hnz : ∀ c ∈ s, c.toNat ≠ 0) :
    cstrDecode (cstringEncode s) = some s := by
  unfold cstrDecode cstringEncode
  have ht : takeUntilNul (utf8Encode s ++ 0 :: []) = utf8Encode s :=
    takeUntilNul_append_nul (utf8Encode s) (zero_not_mem_utf8Encode s hnz) []
  rw [show utf8Encode s ++ [0] = utf8Encode s ++ 0 :: [] from rfl, ht]
  exact utf8DecodeLoop_encode s (utf8Encode s).length
    (length_le_utf8Encode_length s)

/-- C1 witness: the round-trip at the concrete two-character string
consisting of an ASCII letter and a two-byte accented letter. -/
theorem C1_witness :
    (∀ c ∈ "hé".data, c.toNat ≠ 0) ∧
      cstrDecode (cstringEncode "hé".data) = some "hé".data :=
  ⟨by decide, C1_decode_encode_roundtrip "hé".data (by decide)⟩

theorem end_le_freshAddr (rs : List (Nat × Nat)) :
    ∀ p ∈ rs, p.1 + p.2 ≤ freshAddr rs := by
  induction rs with
  | nil => simp
  | cons q t ih =>
    intro p hp
    rcases List.mem_cons.mp hp with h | h
    · subst h
      show p.1 + p.2 ≤ max (freshAddr t) (p.1 + p.2)
      omega
    · have := ih p h
      show p.1 + p.2 ≤ max (freshAddr t) (q.1 + q.2)
      omega

/-- C2. `allocate(size)` returns the address of a freshly reserved region
of capacity at least `size` (never smaller than requested), disjoint from
every live region, and writes no memory (contents left unspecified, not
zero-initialized). -/
theorem C2_malloc_contract (σ : AllocState) (size : Nat) :
    ∃ cap, size ≤ cap ∧
      (malloc σ size).2.regions = ((malloc σ size).1, cap) :: σ.regions ∧
      (∀ p ∈ σ.regions, ∀ x, (malloc σ size).1 ≤ x →
        x < (malloc σ size).1 + cap → ¬(p.1 ≤ x ∧ x < p.1 + p.2)) ∧
      (malloc σ size).2.mem = σ.mem := by
  refine ⟨size, Nat.le_refl _, rfl, ?_, rfl⟩
  intro p hp x hax _hx
  have hend := end_le_freshAddr σ.regions p hp
  intro hcon
  simp only [malloc] at hax
  omega

/-- C3. Round-trip safety of the free pool: allocating `n` and releasing
the same address with the same `n` restores the allocator state exactly
(so every subsequent allocation behaves as on the original state), and the
sequence allocate `n1`, allocate `n2`, release the first, release the
second also restores the state of never having allocated. -/
theorem C3_alloc_release_roundtrip (σ : AllocState) (n n1 n2 m : Nat) :
    free (malloc σ n).2 (malloc σ n).1 n = some σ ∧
    ((free (malloc σ n).2 (malloc σ n).1 n).map fun σ3 => malloc σ3 m) =
      some (malloc σ m) ∧
    ((free (malloc (malloc σ n1).2 n2).2 (malloc σ n1).1 n1).bind
      fun σ3 => free σ3 (malloc (malloc σ n1).2 n2).1 n2) = some σ := by
  have h1 : free (malloc σ n).2 (malloc σ n).1 n = some σ := by
    simp only [malloc, free]
    rw [if_pos (List.mem_cons_self _ _)]
    rw [List.erase_cons_head]
  refine ⟨h1, by rw [h1]; rfl, ?_⟩
  set rs := σ.regions with hrs
  set a1 := freshAddr rs with ha1
  set a2 := freshAddr ((a1, n1) :: rs) with ha2
  have hm1 : ((a1 : Nat), n1) ∈ (a2, n2) :: (a1, n1) :: rs :=
    List.mem_cons_of_mem _ (List.mem_cons_self _ _)
  show ((if ((a1 : Nat), n1) ∈ (a2, n2) :: (a1, n1) :: rs then
      some (⟨((a2, n2) :: (a1, n1) :: rs).erase (a1, n1), σ.mem⟩ : AllocState)
    else none).bind fun σ3 => free σ3 a2 n2) = some σ
  rw [if_pos hm1]
  by_cases hp : ((a2 : Nat), n2) = (a1, n1)
  · rw [hp, List.erase_cons_head]
    simp only [Option.some_bind, free]
    rw [if_pos (by rw [hp]; exact List.mem_cons_self _ _)]
    rw [hp, List.erase_cons_head]
  · rw [List.erase_cons_tail (by simpa using hp), List.erase_cons_head]
    simp only [Option.some_bind, free]
    rw [if_pos (List.mem_cons_self _ _)]
    rw [List.erase_cons_head]

/-! ## Claims C4, C5, C6, C10 -/

/-- C4. Every failure of the input-reading steps of the `to_upper`
module's `evaluate` — invalid UTF-8 bytes, malformed JSON, an absent
path, or a non-string value at the path (the last two both surface as
`as_str` returning nothing) — is fatal: the call aborts, returning no
envelope at all (so neither a diagnostic, nor a partial envelope, nor a
`value = null` envelope, nor an empty one), and these are the only ways
the call can fail. -/
theorem C4_input_failures_fatal (input : List Nat) :
    toUpperEvaluate input = none ↔
      cstrDecode input = none ∨
      (∃ s, cstrDecode input = some s ∧ parseJson s = none) ∨
      (∃ s v, cstrDecode input = some s ∧ parseJson s = some v ∧
        (toUpperExtract v).asStr = none) := by
  unfold toUpperEvaluate
  rcases h1 : cstrDecode input with _ | s
  · simp
  · rcases h2 : parseJson s with _ | v
    · simp [h2]
    · rcases h3 : (toUpperExtract v).asStr with _ | r
      · simp [h2, h3]
      · simp [h2, h3]

/-- C5. Whenever the input buffer decodes and parses and holds a string
`s` at the module's fixed path `results.bindings[0].value_1.value`, the
`to_upper` module emits the result envelope whose value is the
Unicode-aware uppercase of `s` (`toUppercase`, not a byte-wise ASCII
transform). -/
theorem C5_uppercase_unicode (input : List Nat) (s : List Char) (v : Json)
    (r : List Char) (h1 : cstrDecode input = some s)
    (h2 : parseJson s = some v) (h3 : (toUpperExtract v).asStr = some r) :
    toUpperEvaluate input =
      some (cstringEncode (ser (envelope (.str (toUppercase r))))) := by
  simp [toUpperEvaluate, h1, h2, h3]

/-- C5 witness: end-to-end scenario 2 — the input envelope with
`results.bindings[0].value_1.value = "hello"` yields the output value
`"HELLO"`. -/
theorem C5_witness :
    toUpperEvaluate demoInput =
      some (cstringEncode (ser (envelope (.str (toUppercase "hello".data))))) ∧
    toUppercase "hello".data = "HELLO".data :=
  ⟨C5_uppercase_unicode demoInput demoInputText demoValue "hello".data
    rfl rfl rfl, by decide⟩

/-- C6. Each constant module emits the fixed envelope holding its
constant's decimal token, identically on every call; and each token
carries the constant to full double precision: it lies strictly within
half an ulp of the exact `f64` value (`PI = 884279719003555 / 2^48` and
`E = 6121026514868073 / 2^51` lie in `[2, 4)` where the ulp is `2^-51`,
`FRAC_PI_3 = 2358079250676147 / 2^51` lies in `[1, 2)` where the ulp is
`2^-52`), so each token string-parses back, under round-to-nearest, to
exactly that double. -/
theorem C6_constant_values (i : List Nat) :
    piEvaluate i = cstringEncode (ser (envelope (.num piToken))) ∧
    eEvaluate i = cstringEncode (ser (envelope (.num eToken))) ∧
    fracPi3Evaluate i = cstringEncode (ser (envelope (.num fracPi3Token))) ∧
    (∃ q, decimalToRat piToken = some q ∧
      |q - (884279719003555 : ℚ) / 2 ^ 48| < 1 / 2 ^ 52) ∧
    (∃ q, decimalToRat eToken = some q ∧
      |q - (6121026514868073 : ℚ) / 2 ^ 51| < 1 / 2 ^ 52) ∧
    ∃ q, decimalToRat fracPi3Token = some q ∧
      |q - (2358079250676147 : ℚ) / 2 ^ 51| < 1 / 2 ^ 53 := by
  refine ⟨rfl, rfl, rfl, ⟨_, rfl, ?_⟩, ⟨_, rfl, ?_⟩, ⟨_, rfl, ?_⟩⟩ <;>
    rw [abs_sub_lt_iff] <;> constructor
  · norm_num [show digitsToNat (List.takeWhile Char.isDigit piToken) 0 = 3
      from rfl, show digitsToNat ['1', '4', '1', '5', '9', '2', '6', '5',
      '3', '5', '8', '9', '7', '9', '3'] 0 = 141592653589793 from rfl]
  · norm_num [show digitsToNat (List.takeWhile Char.isDigit piToken) 0 = 3
      from rfl, show digitsToNat ['1', '4', '1', '5', '9', '2', '6', '5',
      '3', '5', '8', '9', '7', '9', '3'] 0 = 141592653589793 from rfl]
  · norm_num [show digitsToNat (List.takeWhile Char.isDigit eToken) 0 = 2
      from rfl, show digitsToNat ['7', '1', '8', '2', '8', '1', '8', '2',
      '8', '4', '5', '9', '0', '4', '5'] 0 = 718281828459045 from rfl]
  · norm_num [show digitsToNat (List.takeWhile Char.isDigit eToken) 0 = 2
      from rfl, show digitsToNat ['7', '1', '8', '2', '8', '1', '8', '2',
      '8', '4', '5', '9', '0', '4', '5'] 0 = 718281828459045 from rfl]
  · norm_num [show digitsToNat (List.takeWhile Char.isDigit fracPi3Token) 0
      = 1 from rfl, show digitsToNat ['0', '4', '7', '1', '9', '7', '5',
      '5', '1', '1', '9', '6', '5', '9', '7', '9'] 0 = 471975511965979
      from rfl]
  · norm_num [show digitsToNat (List.takeWhile Char.isDigit fracPi3Token) 0
      = 1 from rfl, show digitsToNat ['0', '4', '7', '1', '9', '7', '5',
      '5', '1', '1', '9', '6', '5', '9', '7', '9'] 0 = 471975511965979
      from rfl]

/-- C10. The constant modules never read their input argument: any two
calls, on any two input buffers (including the empty or absent one),
produce byte-identical output payloads. -/
theorem C10_constant_input_independence (i1 i2 : List Nat) :
    piEvaluate i1 = piEvaluate i2 ∧ eEvaluate i1 = eEvaluate i2 ∧
      fracPi3Evaluate i1 = fracPi3Evaluate i2 :=
  ⟨rfl, rfl, rfl⟩

theorem hexDigit_ge (n : Nat) (h : n < 16) : 0x20 ≤ (hexDigit n).toNat := by
  interval_cases n <;> decide

theorem escChar_ge (c : Char) : ∀ d ∈ escChar c, 0x20 ≤ d.toNat := by
  intro d hd
  unfold escChar at hd
  split_ifs at hd with h1 h2 h3 h4 h5 h6 h7 h8
  · rcases List.mem_pair.mp hd with rfl | rfl <;> decide
  · rcases List.mem_pair.mp hd with rfl | rfl <;> decide
  · rcases List.mem_pair.mp hd with rfl | rfl <;> decide
  · rcases List.mem_pair.mp hd with rfl | rfl <;> decide
  · rcases List.mem_pair.mp hd with rfl | rfl <;> decide
  · rcases List.mem_pair.mp hd with rfl | rfl <;> decide
  · rcases List.mem_pair.mp hd with rfl | rfl <;> decide
  · simp only [List.mem_cons] at hd
    rcases hd with rfl | rfl | rfl | rfl | rfl | rfl | hd
    · decide
    · decide
    · decide
    · decide
    · exact hexDigit_ge _ (by omega)
    · exact hexDigit_ge _ (by omega)
    · exact absurd hd (List.not_mem_nil d)
  · rcases List.mem_singleton.mp hd with rfl
    omega

theorem escString_ge (s : List Char) : ∀ d ∈ escString s, 0x20 ≤ d.toNat := by
  induction s with
  | nil => intro d hd; simp [escString] at hd
  | cons c cs ih =>
    intro d hd
    rcases List.mem_append.mp hd with hd | hd
    · exact escChar_ge c d hd
    · exact ih d hd

theorem serStr_ge (s : List Char) : ∀ d ∈ serStr s, 0x20 ≤ d.toNat := by
  intro d hd
  rcases List.mem_cons.mp hd with rfl | hd
  · decide
  · rcases List.mem_append.mp hd with hd | hd
    · exact escString_ge s d hd
    · rcases List.mem_singleton.mp hd with rfl
      decide

mutual

theorem ser_ge : ∀ j : Json, serSafe j = true → ∀ c ∈ ser j, 0x20 ≤ c.toNat
  | .null, _ => by decide
  | .bool true, _ => by decide
  | .bool false, _ => by decide
  | .num tok, hs => by
    simp only [serSafe, List.all_eq_true, decide_eq_true_eq] at hs
    simpa [ser] using hs
  | .str s, _ => by
    simpa [ser] using serStr_ge s
  | .arr [], _ => by decide
  | .arr (x :: xs), hs => by
    have hx : serSafe x = true ∧ serSafeElems xs = true := by
      simpa [serSafe, serSafeElems, Bool.and_eq_true] using hs
    intro c hc
    rcases List.mem_cons.mp hc with rfl | hc
    · decide
    · rcases List.mem_append.mp hc with hc | hc
      · rcases List.mem_append.mp hc with hc | hc
        · exact ser_ge x hx.1 c hc
        · exact serElems_ge xs hx.2 c hc
      · rcases List.mem_singleton.mp hc with rfl
        decide
  | .obj [], _ => by decide
  | .obj ((k, v) :: ms), hs => by
    have hx : serSafe v = true ∧ serSafeMembers ms = true := by
      simpa [serSafe, serSafeMembers, Bool.and_eq_true] using hs
    intro c hc
    rcases List.mem_cons.mp hc with rfl | hc
    · decide
    · rcases List.mem_append.mp hc with hc | hc
      · rcases List.mem_append.mp hc with hc | hc
        · rcases List.mem_append.mp hc with hc | hc
          · exact serStr_ge k c hc
          · rcases List.mem_cons.mp hc with rfl | hc
            · decide
            · exact ser_ge v hx.1 c hc
        · exact serMembers_ge ms hx.2 c hc
      · rcases List.mem_singleton.mp hc with rfl
        decide

theorem serElems_ge : ∀ xs : List Json, serSafeElems xs = true →
    ∀ c ∈ serElems xs, 0x20 ≤ c.toNat
  | [], _ => by simp [serElems]
  | x :: xs, hs => by
    have hx : serSafe x = true ∧ serSafeElems xs = true := by
      simpa [serSafeElems, Bool.and_eq_true] using hs
    intro c hc
    rcases List.mem_cons.mp hc with rfl | hc
    · decide
    · rcases List.mem_append.mp hc with hc | hc
      · exact ser_ge x hx.1 c hc
      · exact serElems_ge xs hx.2 c hc

theorem serMembers_ge : ∀ ms : List (List Char × Json),
    serSafeMembers ms = true → ∀ c ∈ serMembers ms, 0x20 ≤ c.toNat
  | [], _ => by simp [serMembers]
  | (k, v) :: ms, hs => by
    have hx : serSafe v = true ∧ serSafeMembers ms = true := by
      simpa [serSafeMembers, Bool.and_eq_true] using hs
    intro c hc
    rcases List.mem_cons.mp hc with rfl | hc
    · decide
    · rcases List.mem_append.mp hc with hc | hc
      · rcases List.mem_append.mp hc with hc | hc
        · exact serStr_ge k c hc
        · rcases List.mem_cons.mp hc with rfl | hc
          · decide
          · exact ser_ge v hx.1 c hc
      · exact serMembers_ge ms hx.2 c hc

end

/-- Inversion of a successful `to_upper` call: the output is the encoded
serialized envelope around the uppercased extracted string. -/
theorem toUpperEvaluate_some (input : List Nat) (out : List Nat)
    (h : toUpperEvaluate input = some out) :
    ∃ r, out = cstringEncode (ser (envelope (.str (toUppercase r)))) := by
  unfold toUpperEvaluate at h
  rcases h1 : cstrDecode input with _ | s <;> rw [h1] at h
  · simp only [Option.bind_eq_bind', Option.none_bind] at h
    exact Option.noConfusion h
  · simp only [Option.bind_eq_bind', Option.some_bind] at h
    rcases h2 : parseJson s with _ | v <;> rw [h2] at h
    · simp only [Option.none_bind] at h
      exact Option.noConfusion h
    · simp only [Option.some_bind] at h
      rcases h3 : (toUpperExtract v).asStr with _ | r <;> rw [h3] at h
      · simp only [Option.none_bind] at h
        exact Option.noConfusion h
      · simp only [Option.some_bind, Option.some.injEq] at h
        exact ⟨r, h.symm⟩

/-- The envelope is serialization-safe whenever its value is. -/
theorem serSafe_envelope (v : Json) (hv : serSafe v = true) :
    serSafe (envelope v) = true := by
  simp [envelope, serSafe, serSafeMembers, serSafeElems, hv]

/-! ## Claims C7, C8, C9 -/

/-- C7. Every successful `evaluate` output is the serialization of
`envelope v` for some value `v`, and the envelope has exactly the fixed
shape: `head.vars` is the one-element list `["result"]`, and
`results.bindings` holds exactly one binding, named `"result"`, whose
type field is `"literal"`. -/
theorem C7_envelope_shape :
    (∀ v, ((envelope v).key "head".data).key "vars".data =
        .arr [.str "result".data] ∧
      ((envelope v).key "results".data).key "bindings".data =
        .arr [.obj [("result".data,
          .obj [("type".data, .str "literal".data), ("value".data, v)])]]) ∧
    (∀ input out, toUpperEvaluate input = some out →
      ∃ v, out = cstringEncode (ser (envelope v))) ∧
    (∀ i, piEvaluate i = cstringEncode (ser (envelope (.num piToken)))) ∧
    (∀ i, eEvaluate i = cstringEncode (ser (envelope (.num eToken)))) ∧
    ∀ i, fracPi3Evaluate i =
      cstringEncode (ser (envelope (.num fracPi3Token))) := by
  refine ⟨fun v => ⟨rfl, rfl⟩, ?_, fun i => rfl, fun i => rfl, fun i => rfl⟩
  intro input out h
  obtain ⟨r, rfl⟩ := toUpperEvaluate_some input out h
  exact ⟨.str (toUppercase r), rfl⟩

/-- C7 witness: the envelope-shaped output of the successful call on the
demonstration input. -/
theorem C7_witness : ∃ v, demoOutput = cstringEncode (ser (envelope v)) :=
  C7_envelope_shape.2.1 demoInput demoOutput rfl

/-- C8. A successful `evaluate` call performs exactly one allocation —
the output buffer, at a fresh address — and leaves everything else
untouched: every previously live region (in particular the host-supplied
input buffer) remains live with its bytes unchanged, the input buffer is
never released, and no byte outside the fresh output region is written. -/
theorem C8_one_allocation_frame (f : List Nat → Option (List Nat))
    (σ : AllocState) (input : List Nat) (a : Nat) (σ2 : AllocState)
    (h : runModule f σ input = some (a, σ2)) :
    ∃ out, f input = some out ∧
      σ2.regions = (a, out.length) :: σ.regions ∧
      MemUnchangedOutside σ.mem σ2.mem a out.length ∧
      ∀ p ∈ σ.regions, p ∈ σ2.regions ∧
        ∀ x, p.1 ≤ x → x < p.1 + p.2 → σ2.mem x = σ.mem x := by
  unfold runModule at h
  rcases hf : f input with _ | out <;> rw [hf] at h
  · simp at h
  simp only [Option.map_some'] at h
  have h' := Option.some.inj h
  simp only [Prod.mk.injEq] at h'
  obtain ⟨ha, hs⟩ := h'
  subst ha
  subst hs
  refine ⟨out, rfl, rfl, ?_, ?_⟩
  · intro x hx
    show writeBytes σ.mem (freshAddr σ.regions) out x = σ.mem x
    unfold writeBytes
    rw [if_neg (by omega)]
  · intro p hp
    refine ⟨List.mem_cons_of_mem _ hp, ?_⟩
    intro x hx1 hx2
    have hend := end_le_freshAddr σ.regions p hp
    show writeBytes σ.mem (freshAddr σ.regions) out x = σ.mem x
    unfold writeBytes
    rw [if_neg (by omega)]
/-- C8 witness: the frame conditions at a concrete call of the pi module
against a state holding one host-owned region. -/
theorem C8_witness :
    ∃ out, some (piEvaluate []) = some out ∧
      demoStepped.regions = (105, out.length) :: demoState.regions ∧
      MemUnchangedOutside demoState.mem demoStepped.mem 105 out.length ∧
      ∀ p ∈ demoState.regions, p ∈ demoStepped.regions ∧
        ∀ x, p.1 ≤ x → x < p.1 + p.2 →
          demoStepped.mem x = demoState.mem x :=
  C8_one_allocation_frame (fun i => some (piEvaluate i)) demoState []
    105 demoStepped rfl

/-- C9. No module output ever carries an embedded terminator byte before
the appended terminator, on any input: the serializer escapes every
control character in string values (so even an extracted string
containing U+0000 is emitted as the six printable characters of its
escape), and every other serialized character is printable — even though
`CString::from_vec_unchecked` is the unchecked constructor and would
silently accept an interior terminator. -/
theorem C9_no_interior_nul :
    (∀ input out, toUpperEvaluate input = some out →
      ∃ p, out = p ++ [0] ∧ ∀ b ∈ p, b ≠ 0) ∧
    (∀ i, ∃ p, piEvaluate i = p ++ [0] ∧ ∀ b ∈ p, b ≠ 0) ∧
    (∀ i, ∃ p, eEvaluate i = p ++ [0] ∧ ∀ b ∈ p, b ≠ 0) ∧
    ∀ i, ∃ p, fracPi3Evaluate i = p ++ [0] ∧ ∀ b ∈ p, b ≠ 0 := by
  have key : ∀ v : Json, serSafe v = true →
      ∀ b ∈ utf8Encode (ser (envelope v)), b ≠ 0 := by
    intro v hv
    apply zero_not_mem_utf8Encode
    intro c hc
    have h32 := ser_ge (envelope v) (serSafe_envelope v hv) c hc
    omega
  refine ⟨?_,
    fun i => ⟨utf8Encode (ser (envelope (.num piToken))), rfl,
      key (.num piToken) (by decide)⟩,
    fun i => ⟨utf8Encode (ser (envelope (.num eToken))), rfl,
      key (.num eToken) (by decide)⟩,
    fun i => ⟨utf8Encode (ser (envelope (.num fracPi3Token))), rfl,
      key (.num fracPi3Token) (by decide)⟩⟩
  intro input out h
  obtain ⟨r, rfl⟩ := toUpperEvaluate_some input out h
  exact ⟨utf8Encode (ser (envelope (.str (toUppercase r)))), rfl,
    key (.str (toUppercase r)) rfl⟩

/-- C9 witness: the successful call on the demonstration input yields a
payload free of interior terminator bytes. -/
theorem C9_witness :
    ∃ p, demoOutput = p ++ [0] ∧ ∀ b ∈ p, b ≠ 0 :=
  C9_no_interior_nul.1 demoInput demoOutput rfl

end StardogWasm
